import Mathlib

/-!
Verification of the qiskit-terra transpiler core (`qiskit/transpiler/_transpiler.py`)
and the Aer qasm-simulator validation (`qiskit/backends/aer/qasm_simulator.py`)
against their natural-language specification.

The Python source is shallowly embedded: pure functions become Lean functions,
exceptions become `Except`, and the scipy sparse-graph breadth-first search used
by `_best_subset` is modelled operationally (CSR rows hold the sorted distinct
out-neighbours; the undirected search scans out-neighbours first, then
in-neighbours, as `_breadth_first_undirected` does).
-/

/-- Errors raised by the transpiler core.  `invalidArgument` corresponds to
`QiskitError('Number of qubits <= 0.')`, `capacityExceeded` to
`QiskitError('Number of qubits greater than device.')`, `indexError` to a numpy
`IndexError` escaping from the BFS-prefix indexing, and `typeError` to a Python
`TypeError` from a membership test or subscript on a non-sequence. -/
inductive TErr where
  | invalidArgument
  | capacityExceeded
  | indexError
  | typeError
deriving DecidableEq, Repr

/-- A quantum register: a name and a size, as declared on the input circuit. -/
structure QReg where
  name : String
  size : Nat
deriving DecidableEq, Repr

/-- A node of the DAG's multigraph as seen by `_matches_coupling_map`: its
`type` field and its qubit arguments (register-name, index) pairs. -/
structure GateNode where
  ntype : String
  qargs : List (String × Nat)
deriving DecidableEq, Repr

/-- The DAG circuit, as far as the transpiler driver inspects it: the declared
quantum registers (`dag.qregs`), the multigraph nodes, and an abstract payload
standing for everything else the mapper passes transform. -/
structure DAGCircuit (α : Type) where
  qregs : List QReg
  nodes : List GateNode
  payload : α
deriving DecidableEq, Repr

/-- The `coupling_map` argument: `None`, the string `"all-to-all"`, or a list
of directed coupling pairs. -/
inductive CMapArg where
  | noneArg
  | allToAll
  | pairs (m : List (Nat × Nat))
deriving DecidableEq, Repr

/-- Python truthiness of a `coupling_map` value: `None` is falsy, the nonempty
string `"all-to-all"` is truthy, a list is truthy iff nonempty. -/
def CMapArg.truthy : CMapArg → Bool
  | .noneArg => false
  | .allToAll => true
  | .pairs m => !m.isEmpty

/-! ## `_best_subset`: best-connected subset search -/

/-- Insert a value into a sorted duplicate-free list, keeping it sorted and
duplicate-free.  Used to build CSR rows (sorted distinct column indices). -/
def insertSorted (x : Nat) : List Nat → List Nat
  | [] => [x]
  | y :: ys =>
    if x = y then y :: ys
    else if x < y then x :: y :: ys
    else y :: insertSorted x ys

/-- The CSR row of physical qubit `v` in the sparse coupling matrix: the sorted
distinct targets of directed coupling pairs leaving `v` (duplicate coordinates
are merged by `tocsr`, and CSR column indices are sorted). -/
def outNeighbors (E : List (Nat × Nat)) (v : Nat) : List Nat :=
  E.foldl (fun acc e => if e.1 = v then insertSorted e.2 acc else acc) []

/-- The CSR row of `v` in the transposed coupling matrix: sorted distinct
sources of directed coupling pairs entering `v`. -/
def inNeighbors (E : List (Nat × Nat)) (v : Nat) : List Nat :=
  E.foldl (fun acc e => if e.2 = v then insertSorted e.1 acc else acc) []

/-- Enqueue each element of `l` (in order) at the back of `acc` unless it is
already present — the discovery step of scipy's breadth-first search. -/
def enqueueNew (acc : List Nat) (l : List Nat) : List Nat :=
  l.foldl (fun a c => if c ∈ a then a else a ++ [c]) acc

/-- One cursor sweep of `_breadth_first_undirected`: process the node list from
position `i`, appending each processed node's undiscovered out-neighbours (CSR
order) and then its undiscovered in-neighbours.  `fuel` bounds the number of
processed positions; the node list is the discovery order. -/
def bfsVisit (E : List (Nat × Nat)) : Nat → Nat → List Nat → List Nat
  | 0, _, nl => nl
  | fuel + 1, i, nl =>
    if h : i < nl.length then
      let v := nl.get ⟨i, h⟩
      bfsVisit E fuel (i + 1) (enqueueNew (enqueueNew nl (outNeighbors E v)) (inNeighbors E v))
    else nl

/-- The breadth-first visitation order from `root`, as returned by
`scipy.sparse.csgraph.breadth_first_order(..., directed=False,
return_predecessors=False)` on a `device × device` matrix holding the coupling
pairs.  Only the connected component of `root` is listed.  `device` processing
steps suffice because at most `device` distinct nodes are ever discovered. -/
def bfsOrder (E : List (Nat × Nat)) (device : Nat) (root : Nat) : List Nat :=
  bfsVisit E device 0 [root]

/-- The inner scoring loop of `_best_subset`: for each node of the candidate
prefix, count the CSR row entries (distinct out-neighbours) that land back in
the prefix. -/
def connectionCount (E : List (Nat × Nat)) (front : List Nat) : Nat :=
  (front.map (fun v => ((outNeighbors E v).filter (fun t => decide (t ∈ front))).length)).sum

/-- The candidate prefix for a BFS root: the first `n` nodes of its
breadth-first order. -/
def subsetCandidate (E : List (Nat × Nat)) (device n root : Nat) : List Nat :=
  (bfsOrder E device root).take n

/-- The score of a BFS root's candidate prefix. -/
def connAt (E : List (Nat × Nat)) (device n root : Nat) : Nat :=
  connectionCount E (subsetCandidate E device n root)

/-- One root's update of the running `(best, best_map)` state: replace the
state only on a strictly greater score (ties keep the earliest root). -/
def bestStep (E : List (Nat × Nat)) (device n : Nat)
    (st : Nat × Option (List Nat)) (k : Nat) : Nat × Option (List Nat) :=
  let c := connAt E device n k
  if st.1 < c then (c, some (subsetCandidate E device n k)) else st

/-- The root loop of `_best_subset`, with the numpy `IndexError` made explicit:
reading `bfs[i]` for `i < n` on a breadth-first order shorter than `n` raises. -/
def bestSubsetLoop (E : List (Nat × Nat)) (device n : Nat) :
    Except TErr (Nat × Option (List Nat)) :=
  (List.range device).foldlM
    (fun st k =>
      if n ≤ (bfsOrder E device k).length then Except.ok (bestStep E device n st k)
      else Except.error TErr.indexError)
    (0, none)

/-- Shallow embedding of `_best_subset(backend, n_qubits)`.  `device` is
`backend.configuration().n_qubits` and `E` the backend's coupling pairs.
Mirrors the source order of checks: the `n == 1` early return precedes both
the non-positivity and the capacity check; the loop keeps the candidate with
the strictly greatest connection count and may return `None` untouched. -/
def _best_subset (device : Nat) (E : List (Nat × Nat)) (n : Int) :
    Except TErr (Option (List Nat)) :=
  if n = 1 then Except.ok (some [0])
  else if n ≤ 0 then Except.error TErr.invalidArgument
  else if (device : Int) < n then Except.error TErr.capacityExceeded
  else do
    let st ← bestSubsetLoop E device n.toNat
    Except.ok st.2

example : bfsOrder [(0,1),(1,2),(1,3)] 4 0 = [0, 1, 2, 3] := by decide
example : bfsOrder [(0,1),(1,2),(1,3)] 4 1 = [1, 2, 3, 0] := by decide
example : bfsOrder [(0,1),(1,2),(1,3)] 4 2 = [2, 1, 3, 0] := by decide
example : _best_subset 4 [(0,1),(1,2),(1,3)] 3 = Except.ok (some [0, 1, 2]) := rfl
example : _best_subset 3 [(0,1)] 2 = Except.error TErr.indexError := rfl
example : _best_subset 3 [(1,2)] 2 = Except.error TErr.indexError := rfl
example : _best_subset 0 [] 1 = Except.ok (some [0]) := rfl

/-! ## `_matches_coupling_map` and the layout decision -/

/-- The per-node test of `_matches_coupling_map`'s loop: an `op` node with more
than one qubit argument whose qubit-index list is not an element of the
coupling list sets `match = False`. -/
def gateViolates (m : List (Nat × Nat)) (nd : GateNode) : Bool :=
  nd.ntype == "op" && decide (1 < nd.qargs.length) &&
    !(m.any (fun p => nd.qargs.map Prod.snd == [p.1, p.2]))

/-- Shallow embedding of `_matches_coupling_map(dag, coupling_map)` for a
coupling list: scan the multigraph nodes and break to `False` at the first
multi-qubit op whose qubit pair is not in the list. -/
def _matches_coupling_map (nodes : List GateNode) (m : List (Nat × Nat)) : Bool :=
  match nodes with
  | [] => true
  | nd :: rest => if gateViolates m nd then false else _matches_coupling_map rest m

/-- An `op` node touching more than one qubit. -/
def isMultiQubitOp (nd : GateNode) : Bool :=
  nd.ntype == "op" && decide (1 < nd.qargs.length)

/-- `_matches_coupling_map` on an arbitrary `coupling_map` argument: on a
non-list (`None` or `"all-to-all"`) the membership test `gate_map not in
coupling_map` raises `TypeError` at the first multi-qubit op, and the loop
returns `True` untouched when no such op exists. -/
def matchesArg (nodes : List GateNode) : CMapArg → Except TErr Bool
  | CMapArg.pairs m => Except.ok (_matches_coupling_map nodes m)
  | _ => if nodes.any isMultiQubitOp then Except.error TErr.typeError else Except.ok true

/-- A layout, as `transpile_dag` documents it: an association list from
virtual qubit (register-name, index) to physical qubit (register-name, index). -/
abbrev Layout := List ((String × Nat) × (String × Nat))

/-- The backend configuration fields the transpiler driver reads. -/
structure BackendConf where
  basis_gates : List String
  coupling : CMapArg
  simulator : Bool
  n_qubits : Nat

/-- The coupling pairs `_best_subset` extracts from a backend configuration.
A missing list or the `"all-to-all"` string yields no pairs; on those the real
code's `cmap[:, 0]` raises `IndexError`, which the embedded `_best_subset`
reproduces on the empty pair list whenever `n >= 2` (for `n <= 1` the real code
returns or raises before touching the coupling data). -/
def cmapPairsOf : CMapArg → List (Nat × Nat)
  | CMapArg.pairs m => m
  | _ => []

/-! ## `_pick_best_layout` -/

/-- Shallow embedding of `_pick_best_layout(dag, backend)`: compute the total
declared qubit count, get the best-connected subset, then walk the registers in
declaration order and each register's indices in increasing order, assigning
`(qreg.name, i) -> ('q', best_sub[map_iter])` with a running `map_iter`.
Subscripting a `None` subset raises `TypeError`; subscripting past the end of
the subset raises `IndexError`. -/
def _pick_best_layout (device : Nat) (E : List (Nat × Nat)) (regs : List QReg) :
    Except TErr Layout := do
  let num_qubits := (regs.map QReg.size).sum
  let bs ← _best_subset device E (num_qubits : Int)
  match bs with
  | none => Except.error TErr.typeError
  | some sub =>
    let st ← regs.foldlM
      (fun (st : Layout × Nat) qreg =>
        (List.range qreg.size).foldlM
          (fun (st : Layout × Nat) i =>
            match sub.get? st.2 with
            | some phys => Except.ok (st.1 ++ [((qreg.name, i), ("q", phys))], st.2 + 1)
            | none => Except.error TErr.indexError)
          st)
      (([], 0) : Layout × Nat)
    Except.ok st.1

/-! ## `transpile_dag` -/

/-- One event of the pass pipeline, recorded in the order the driver invokes
the passes; the router event records its trial count and the seed handed to
`swap_mapper`, and `custom i` records the `i`-th pass of a caller-supplied
pass manager. -/
inductive PassEvent where
  | unroll
  | removeMeas
  | swapMap (trials : Nat) (seed : Option Int)
  | direction
  | cxCancel
  | opt1q
  | returnMeas
  | custom (i : Nat)
deriving DecidableEq, Repr

/-- The mapper/unroller entry points `transpile_dag` calls.  They live outside
the analysed sources (`qiskit.unrollers`, `qiskit.mapper`), so they are opaque
parameters of the embedding: only the orchestration around them is verified.
`M` is the type of removed-measurement data, `C` the built coupling object. -/
structure MapperOps (α M C : Type) where
  expandGates : List String → DAGCircuit α → DAGCircuit α
  couplingOf : List (Nat × Nat) → C
  removeLastMeasurements : DAGCircuit α → DAGCircuit α × M
  swapMapper : DAGCircuit α → C → Option Layout → Nat → Option Int → DAGCircuit α × Layout × Layout
  directionMapper : DAGCircuit α → C → DAGCircuit α
  cxCancellation : DAGCircuit α → DAGCircuit α
  optimize1qGates : DAGCircuit α → DAGCircuit α
  returnLastMeasurements : DAGCircuit α → M → Layout → DAGCircuit α

/-- The basis list `basis_gates.split(',') if basis_gates else []`: `None` and
the empty string are falsy. -/
def basisList (basis_gates : Option String) : List String :=
  match basis_gates with
  | some s => if s = "" then [] else s.splitOn ","
  | none => []

/-- Shallow embedding of `transpile_dag`, instrumented with the list of pass
events it performs.  Mirrors the source: a total register size of 1 or the
`"all-to-all"` string disables the coupling map; a supplied pass manager runs
exactly its passes (`run_passes` is outside the analysed sources and is
modelled from the spec as running the caller's ordered pass list); otherwise
the default sequence runs, with the coupling-dependent passes only when the
effective coupling map is a nonempty list. -/
def transpile_dag (P : MapperOps α M C) (dag : DAGCircuit α) (basis_gates : Option String)
    (coupling_map : CMapArg) (initial_layout : Option Layout) (seed_mapper : Option Int)
    (pass_manager : Option (List (DAGCircuit α → DAGCircuit α))) :
    DAGCircuit α × Option Layout × List PassEvent :=
  let num_qubits := (dag.qregs.map QReg.size).sum
  let cm := if num_qubits = 1 ∨ coupling_map = CMapArg.allToAll then CMapArg.noneArg
            else coupling_map
  match pass_manager with
  | some ps =>
    (ps.foldl (fun d p => p d) dag, none, (List.range ps.length).map PassEvent.custom)
  | none =>
    let basis := basisList basis_gates
    let dag1 := P.expandGates basis dag
    match cm with
    | CMapArg.pairs m =>
      if m.isEmpty then (dag1, none, [PassEvent.unroll])
      else
        let coupling := P.couplingOf m
        let (dag2, removed) := P.removeLastMeasurements dag1
        let (dag3, final_layout, last_layout) := P.swapMapper dag2 coupling initial_layout 20 seed_mapper
        let dag4 := P.expandGates basis dag3
        let dag5 := P.directionMapper dag4 coupling
        let dag6 := P.cxCancellation dag5
        let dag7 := P.optimize1qGates dag6
        (P.returnLastMeasurements dag7 removed last_layout, some final_layout,
          [PassEvent.unroll, PassEvent.removeMeas, PassEvent.swapMap 20 seed_mapper,
           PassEvent.unroll, PassEvent.direction, PassEvent.cxCancel, PassEvent.opt1q,
           PassEvent.returnMeas])
    | _ => (dag1, none, [PassEvent.unroll])

/-- The default pass-event trace of `transpile_dag` when the coupling-dependent
passes run. -/
def defaultCouplingTrace (seed_mapper : Option Int) : List PassEvent :=
  [PassEvent.unroll, PassEvent.removeMeas, PassEvent.swapMap 20 seed_mapper,
   PassEvent.unroll, PassEvent.direction, PassEvent.cxCancel, PassEvent.opt1q,
   PassEvent.returnMeas]

/-! ## `_transpilation` and `transpile` -/

/-- The circuit-level collaborators of `_transpilation` that live outside the
analysed sources: DAG construction from a circuit and the conversion back to a
circuit with the final layout attached.  Opaque parameters of the embedding. -/
structure TranspEnv (α M C ν ω : Type) where
  ops : MapperOps α M C
  fromQuantumCircuit : ν → DAGCircuit α
  toQuantumCircuit : DAGCircuit α → Option Layout → ω

/-- The layout decision of `_transpilation` (source lines 91–93): pick a best
layout only when none was supplied, the backend is not a simulator, and the
dag does not already match the coupling map. -/
def effectiveInitialLayout (nodes : List GateNode) (qregs : List QReg) (backend : BackendConf)
    (coupling_map : CMapArg) (initial_layout : Option Layout) : Except TErr (Option Layout) :=
  if initial_layout.isNone && !backend.simulator then do
    let mt ← matchesArg nodes coupling_map
    if mt then Except.ok initial_layout
    else do
      let l ← _pick_best_layout backend.n_qubits (cmapPairsOf backend.coupling) qregs
      Except.ok (some l)
  else Except.ok initial_layout

/-- Shallow embedding of `_transpilation(circuit, backend, ...)`: build the
dag, settle the initial layout, run `transpile_dag` with `get_layout=True`, and
convert back to a circuit with the final layout attached.  The returned pass
trace instruments the pipeline run. -/
def _transpilation (env : TranspEnv α M C ν ω) (circuit : ν) (backend : BackendConf)
    (basis_gates : Option String) (coupling_map : CMapArg) (initial_layout : Option Layout)
    (seed_mapper : Option Int) (pass_manager : Option (List (DAGCircuit α → DAGCircuit α))) :
    Except TErr (ω × List PassEvent) := do
  let dag := env.fromQuantumCircuit circuit
  let il ← effectiveInitialLayout dag.nodes dag.qregs backend coupling_map initial_layout
  let r := transpile_dag env.ops dag basis_gates coupling_map il seed_mapper pass_manager
  Except.ok (env.toQuantumCircuit r.1 r.2.1, r.2.2)

/-- Modelled from the spec: `parallel_map` (from `qiskit.transpiler._parallel`,
outside the analysed sources) is an order-preserving task-parallel map applying
a pure per-item function independently to each item. -/
def parallel_map (f : ν → β) (l : List ν) : List β := l.map f

/-- Python truthiness of an optional string: `None` and `''` are falsy. -/
def strTruthy : Option String → Bool
  | some s => s ≠ ""
  | none => false

/-- Shallow embedding of `transpile(circuits, backend, ...)` on a list of
circuits: default the basis gates and coupling map from the backend
configuration, then transpile every circuit through `parallel_map` with
identical task arguments. -/
def transpile (env : TranspEnv α M C ν ω) (circuits : List ν) (backend : BackendConf)
    (basis_gates : Option String) (coupling_map : CMapArg) (initial_layout : Option Layout)
    (seed_mapper : Option Int) (pass_manager : Option (List (DAGCircuit α → DAGCircuit α))) :
    List (Except TErr (ω × List PassEvent)) :=
  let bg := if strTruthy basis_gates then basis_gates
            else some (String.intercalate "," backend.basis_gates)
  let cm := if coupling_map.truthy then coupling_map else backend.coupling
  parallel_map
    (fun c => _transpilation env c backend bg cm initial_layout seed_mapper pass_manager)
    circuits

/-- Modelled from the spec: each router trial inside `swap_mapper` (outside the
analysed sources) is seeded deterministically from the caller-supplied seed
plus the trial index. -/
def trial_seed (callerSeed : Int) (trialIndex : Nat) : Int :=
  callerSeed + trialIndex

/-! ## `QasmSimulator._validate` and `_run_job` -/

/-- An instruction of a qobj experiment, as far as validation reads it. -/
structure Instruction where
  name : String
deriving DecidableEq, Repr

/-- The header of a qobj experiment. -/
structure ExpHeader where
  name : String
deriving DecidableEq, Repr

/-- A qobj experiment: header plus instruction list. -/
structure Experiment where
  header : ExpHeader
  instructions : List Instruction
deriving DecidableEq, Repr

/-- A qobj: the list of experiments. -/
structure Qobj where
  experiments : List Experiment
deriving DecidableEq, Repr

namespace QasmSimulator

/-- Shallow embedding of `QasmSimulator._validate(qobj)`: for each experiment
with no `measure` instruction, emit a warning naming the experiment; nothing is
raised and nothing else happens.  The returned list is the emitted warnings in
order. -/
def _validate (qobj : Qobj) : List String :=
  qobj.experiments.foldl
    (fun ws e =>
      if "measure" ∈ e.instructions.map Instruction.name then ws
      else ws ++ [e.header.name])
    []

/-- Shallow embedding of `QasmSimulator._run_job(job_id, qobj)`: validate, run
the external simulator executable on the qobj dictionary, and attach the job
id.  `as_dict` and `run_exe` stand for the qobj serialisation and the
subprocess call, which are outside the scope of the validation claim; the
result is (warnings emitted, simulator output, job id). -/
def _run_job (as_dict : Qobj → δ) (run_exe : δ → ρ) (job_id : String) (qobj : Qobj) :
    List String × ρ × String :=
  let warnings := _validate qobj
  (warnings, run_exe (as_dict qobj), job_id)

end QasmSimulator

/-! ## Lemmas about sorted insertion and CSR rows -/

theorem insertSorted_mem (x z : Nat) (l : List Nat) :
    z ∈ insertSorted x l ↔ z = x ∨ z ∈ l := by
  induction l with
  | nil => simp [insertSorted]
  | cons y ys ih =>
    simp only [insertSorted]
    split_ifs with h1 h2
    · subst h1
      simp [List.mem_cons] <;> tauto
    · simp [List.mem_cons] <;> tauto
    · simp [List.mem_cons, ih] <;> tauto

theorem insertSorted_sorted (x : Nat) (l : List Nat) (h : l.Sorted (· < ·)) :
    (insertSorted x l).Sorted (· < ·) := by
  induction l with
  | nil => simp [insertSorted]
  | cons y ys ih =>
    rw [List.sorted_cons] at h
    obtain ⟨hy, hys⟩ := h
    simp only [insertSorted]
    split_ifs with h1 h2
    · exact List.sorted_cons.mpr ⟨hy, hys⟩
    · refine List.sorted_cons.mpr ⟨?_, List.sorted_cons.mpr ⟨hy, hys⟩⟩
      intro b hb
      rcases List.mem_cons.mp hb with rfl | hb
      · exact h2
      · exact Nat.lt_trans h2 (hy b hb)
    · refine List.sorted_cons.mpr ⟨?_, ih hys⟩
      intro b hb
      rcases (insertSorted_mem x b ys).mp hb with rfl | hb
      · omega
      · exact hy b hb

theorem outNeighbors_aux_sorted (E : List (Nat × Nat)) (v : Nat) (acc : List Nat)
    (h : acc.Sorted (· < ·)) :
    (E.foldl (fun acc e => if e.1 = v then insertSorted e.2 acc else acc) acc).Sorted (· < ·) := by
  induction E generalizing acc with
  | nil => simpa using h
  | cons e es ih =>
    simp only [List.foldl_cons]
    by_cases he : e.1 = v
    · simp only [he, if_pos rfl]
      exact ih _ (insertSorted_sorted _ _ h)
    · simp only [if_neg he]
      exact ih _ h

theorem outNeighbors_sorted (E : List (Nat × Nat)) (v : Nat) :
    (outNeighbors E v).Sorted (· < ·) :=
  outNeighbors_aux_sorted E v [] (by simp)

theorem outNeighbors_nodup (E : List (Nat × Nat)) (v : Nat) :
    (outNeighbors E v).Nodup :=
  (outNeighbors_sorted E v).imp (fun h => Nat.ne_of_lt h)

theorem outNeighbors_aux_mem (E : List (Nat × Nat)) (v t : Nat) (acc : List Nat) :
    t ∈ E.foldl (fun acc e => if e.1 = v then insertSorted e.2 acc else acc) acc ↔
      t ∈ acc ∨ (v, t) ∈ E := by
  induction E generalizing acc with
  | nil => simp
  | cons e es ih =>
    obtain ⟨a, b⟩ := e
    by_cases he : a = v
    · subst he
      simp [List.foldl_cons, ih, insertSorted_mem, Prod.mk.injEq] <;> tauto
    · have he2 : ¬ v = a := fun h => he h.symm
      simp [List.foldl_cons, ih, he, he2, Prod.mk.injEq] <;> tauto

theorem outNeighbors_mem (E : List (Nat × Nat)) (v t : Nat) :
    t ∈ outNeighbors E v ↔ (v, t) ∈ E := by
  unfold outNeighbors
  rw [outNeighbors_aux_mem]
  simp

theorem inNeighbors_aux_mem (E : List (Nat × Nat)) (v s : Nat) (acc : List Nat) :
    s ∈ E.foldl (fun acc e => if e.2 = v then insertSorted e.1 acc else acc) acc ↔
      s ∈ acc ∨ (s, v) ∈ E := by
  induction E generalizing acc with
  | nil => simp
  | cons e es ih =>
    obtain ⟨a, b⟩ := e
    by_cases he : b = v
    · subst he
      simp [List.foldl_cons, ih, insertSorted_mem, Prod.mk.injEq] <;> tauto
    · have he2 : ¬ v = b := fun h => he h.symm
      simp [List.foldl_cons, ih, he, he2, Prod.mk.injEq] <;> tauto

theorem inNeighbors_mem (E : List (Nat × Nat)) (v s : Nat) :
    s ∈ inNeighbors E v ↔ (s, v) ∈ E := by
  unfold inNeighbors
  rw [inNeighbors_aux_mem]
  simp

/-! ## Lemmas about the breadth-first search -/

theorem enqueueNew_spec (l : List Nat) (acc : List Nat) :
    ∃ t, enqueueNew acc l = acc ++ t ∧ ∀ x ∈ t, x ∈ l := by
  induction l generalizing acc with
  | nil => exact ⟨[], by simp [enqueueNew], by simp⟩
  | cons c cs ih =>
    show ∃ t, cs.foldl _ (if c ∈ acc then acc else acc ++ [c]) = acc ++ t ∧ _
    by_cases hc : c ∈ acc
    · obtain ⟨t, ht, hmem⟩ := ih acc
      exact ⟨t, by simpa [hc] using ht, fun x hx => List.mem_cons_of_mem _ (hmem x hx)⟩
    · obtain ⟨t, ht, hmem⟩ := ih (acc ++ [c])
      refine ⟨[c] ++ t, ?_, ?_⟩
      · simp only [if_neg hc] at *
        rw [← List.append_assoc]
        exact ht
      · intro x hx
        rcases List.mem_append.mp hx with hx | hx
        · simp at hx
          simp [hx]
        · exact List.mem_cons_of_mem _ (hmem x hx)

theorem enqueueNew_nodup (l : List Nat) (acc : List Nat) (h : acc.Nodup) :
    (enqueueNew acc l).Nodup := by
  induction l generalizing acc with
  | nil => simpa [enqueueNew] using h
  | cons c cs ih =>
    show (cs.foldl _ (if c ∈ acc then acc else acc ++ [c])).Nodup
    by_cases hc : c ∈ acc
    · simpa [hc] using ih acc h
    · have hacc : (acc ++ [c]).Nodup := by
        rw [List.nodup_append]
        refine ⟨h, List.nodup_singleton c, ?_⟩
        intro a ha hb
        rw [List.mem_singleton] at hb
        exact hc (hb ▸ ha)
      simpa [hc] using ih (acc ++ [c]) hacc

theorem bfsVisit_append (E : List (Nat × Nat)) (fuel : Nat) :
    ∀ (i : Nat) (nl : List Nat), ∃ t, bfsVisit E fuel i nl = nl ++ t := by
  induction fuel with
  | zero => exact fun i nl => ⟨[], by simp [bfsVisit]⟩
  | succ f ih =>
    intro i nl
    simp only [bfsVisit]
    split
    · obtain ⟨t1, ht1, _⟩ := enqueueNew_spec (outNeighbors E (nl.get ⟨i, by assumption⟩)) nl
      obtain ⟨t2, ht2, _⟩ := enqueueNew_spec
        (inNeighbors E (nl.get ⟨i, by assumption⟩)) (enqueueNew nl (outNeighbors E (nl.get ⟨i, by assumption⟩)))
      obtain ⟨t3, ht3⟩ := ih (i + 1)
        (enqueueNew (enqueueNew nl (outNeighbors E (nl.get ⟨i, by assumption⟩))) (inNeighbors E (nl.get ⟨i, by assumption⟩)))
      refine ⟨t1 ++ t2 ++ t3, ?_⟩
      rw [ht3, ht2, ht1]
      simp [List.append_assoc]
    · exact ⟨[], by simp⟩

theorem bfsVisit_nodup (E : List (Nat × Nat)) (fuel : Nat) :
    ∀ (i : Nat) (nl : List Nat), nl.Nodup → (bfsVisit E fuel i nl).Nodup := by
  induction fuel with
  | zero => intro i nl h; simpa [bfsVisit] using h
  | succ f ih =>
    intro i nl h
    simp only [bfsVisit]
    split
    · exact ih (i + 1) _ (enqueueNew_nodup _ _ (enqueueNew_nodup _ _ h))
    · exact h

theorem bfsVisit_stop (E : List (Nat × Nat)) (fuel i : Nat) (nl : List Nat)
    (h : nl.length ≤ i) : bfsVisit E fuel i nl = nl := by
  cases fuel with
  | zero => rfl
  | succ f =>
    simp only [bfsVisit]
    rw [dif_neg (by omega)]

theorem bfsOrder_nodup (E : List (Nat × Nat)) (device root : Nat) :
    (bfsOrder E device root).Nodup :=
  bfsVisit_nodup E device 0 [root] (List.nodup_singleton root)

theorem bfsOrder_cons (E : List (Nat × Nat)) (device root : Nat) :
    ∃ t, bfsOrder E device root = root :: t := by
  obtain ⟨t, ht⟩ := bfsVisit_append E device 0 [root]
  exact ⟨t, by simpa using ht⟩

theorem bfsOrder_second (E : List (Nat × Nat)) (device root : Nat)
    (h2 : 2 ≤ (bfsOrder E device root).length) :
    ∃ x t, bfsOrder E device root = root :: x :: t ∧
      (x ∈ outNeighbors E root ∨ x ∈ inNeighbors E root) := by
  unfold bfsOrder at *
  cases device with
  | zero =>
    rw [show bfsVisit E 0 0 [root] = [root] from rfl] at h2
    simp at h2
  | succ d =>
    have hstep : bfsVisit E (d + 1) 0 [root] =
        bfsVisit E d 1 (enqueueNew (enqueueNew [root] (outNeighbors E root)) (inNeighbors E root)) := by
      simp [bfsVisit]
    obtain ⟨t1, ht1, hm1⟩ := enqueueNew_spec (outNeighbors E root) [root]
    obtain ⟨t2, ht2, hm2⟩ := enqueueNew_spec (inNeighbors E root) (enqueueNew [root] (outNeighbors E root))
    have hnl2 : enqueueNew (enqueueNew [root] (outNeighbors E root)) (inNeighbors E root) =
        [root] ++ (t1 ++ t2) := by
      rw [ht2, ht1, List.append_assoc]
    cases hcase : t1 ++ t2 with
    | nil =>
      rw [hcase, List.append_nil] at hnl2
      rw [hstep, hnl2, bfsVisit_stop E d 1 [root] (by simp)] at h2
      simp at h2
    | cons x rest =>
      obtain ⟨t3, ht3⟩ := bfsVisit_append E d 1
        (enqueueNew (enqueueNew [root] (outNeighbors E root)) (inNeighbors E root))
      rw [hstep, ht3, hnl2, hcase]
      refine ⟨x, rest ++ t3, by simp, ?_⟩
      have hx : x ∈ t1 ++ t2 := by rw [hcase]; exact List.mem_cons_self x rest
      rcases List.mem_append.mp hx with hx | hx
      · exact Or.inl (hm1 x hx)
      · exact Or.inr (hm2 x hx)

/-! ## Lemmas about the `_best_subset` root loop -/

theorem exceptOkBind (a : σ) (f : σ → Except ε τ) :
    (Except.ok a >>= f : Except ε τ) = f a := rfl

theorem exceptErrBind (e : ε) (f : σ → Except ε τ) :
    (Except.error e >>= f : Except ε τ) = Except.error e := rfl

theorem connectionCount_pos (E : List (Nat × Nat)) (front : List Nat) (v t : Nat)
    (hv : v ∈ front) (ht : t ∈ outNeighbors E v) (htf : t ∈ front) :
    0 < connectionCount E front := by
  unfold connectionCount
  have hterm : 0 < ((outNeighbors E v).filter (fun t => decide (t ∈ front))).length :=
    List.length_pos_of_mem (List.mem_filter.mpr ⟨ht, by simpa using htf⟩)
  have hmem : ((outNeighbors E v).filter (fun t => decide (t ∈ front))).length ∈
      front.map (fun v => ((outNeighbors E v).filter (fun t => decide (t ∈ front))).length) :=
    List.mem_map.mpr ⟨v, hv, rfl⟩
  have hle := List.single_le_sum (l := front.map
      (fun v => ((outNeighbors E v).filter (fun t => decide (t ∈ front))).length))
    (fun _ _ => Nat.zero_le _) _ hmem
  omega

theorem bestLoop_ok_of_all (E : List (Nat × Nat)) (device n : Nat)
    (l : List Nat) (init : Nat × Option (List Nat))
    (h : ∀ k ∈ l, n ≤ (bfsOrder E device k).length) :
    (l.foldlM (fun st k =>
        if n ≤ (bfsOrder E device k).length then Except.ok (bestStep E device n st k)
        else Except.error TErr.indexError) init : Except TErr (Nat × Option (List Nat))) =
      Except.ok (l.foldl (bestStep E device n) init) := by
  induction l generalizing init with
  | nil => rfl
  | cons k ks ih =>
    have hk := h k (List.mem_cons_self k ks)
    rw [List.foldlM_cons, if_pos hk, exceptOkBind, List.foldl_cons]
    exact ih _ (fun j hj => h j (List.mem_cons_of_mem _ hj))

theorem bestLoop_all_of_ok (E : List (Nat × Nat)) (device n : Nat)
    (l : List Nat) (init : Nat × Option (List Nat)) (r : Nat × Option (List Nat))
    (h : (l.foldlM (fun st k =>
        if n ≤ (bfsOrder E device k).length then Except.ok (bestStep E device n st k)
        else Except.error TErr.indexError) init : Except TErr (Nat × Option (List Nat))) =
      Except.ok r) :
    ∀ k ∈ l, n ≤ (bfsOrder E device k).length := by
  induction l generalizing init with
  | nil => intro k hk; simp at hk
  | cons k ks ih =>
    by_cases hk : n ≤ (bfsOrder E device k).length
    · rw [List.foldlM_cons, if_pos hk, exceptOkBind] at h
      intro j hj
      rcases List.mem_cons.mp hj with rfl | hj
      · exact hk
      · exact ih _ h j hj
    · rw [List.foldlM_cons, if_neg hk, exceptErrBind] at h
      exact Except.noConfusion h

theorem bestSubsetLoop_eq (E : List (Nat × Nat)) (device n : Nat)
    (h : ∀ k, k < device → n ≤ (bfsOrder E device k).length) :
    bestSubsetLoop E device n =
      Except.ok ((List.range device).foldl (bestStep E device n) (0, none)) :=
  bestLoop_ok_of_all E device n (List.range device) (0, none)
    (fun k hk => h k (List.mem_range.mp hk))

theorem bestSubsetLoop_all (E : List (Nat × Nat)) (device n : Nat)
    (st : Nat × Option (List Nat)) (h : bestSubsetLoop E device n = Except.ok st) :
    ∀ k, k < device → n ≤ (bfsOrder E device k).length :=
  fun k hk => bestLoop_all_of_ok E device n (List.range device) (0, none) st h k
    (List.mem_range.mpr hk)

theorem bestFold_spec (E : List (Nat × Nat)) (device n : Nat) (d : Nat) :
    (∀ j, j < d → connAt E device n j ≤
        ((List.range d).foldl (bestStep E device n) (0, none)).1) ∧
    (((List.range d).foldl (bestStep E device n) (0, none)).2 = none →
      ((List.range d).foldl (bestStep E device n) (0, none)).1 = 0) ∧
    (∀ lst, ((List.range d).foldl (bestStep E device n) (0, none)).2 = some lst →
      ∃ k, k < d ∧ lst = subsetCandidate E device n k ∧
        connAt E device n k = ((List.range d).foldl (bestStep E device n) (0, none)).1 ∧
        0 < connAt E device n k ∧
        ∀ j, j < k → connAt E device n j < connAt E device n k) := by
  induction d with
  | zero =>
    exact ⟨fun j hj => absurd hj (by omega), fun _ => rfl, fun lst h => by simp at h⟩
  | succ d ih =>
    obtain ⟨ihA, ihB, ihC⟩ := ih
    simp only [List.range_succ, List.foldl_append, List.foldl_cons, List.foldl_nil]
    by_cases hlt : ((List.range d).foldl (bestStep E device n) (0, none)).1 <
        connAt E device n d
    · have hstep : bestStep E device n ((List.range d).foldl (bestStep E device n) (0, none)) d =
          (connAt E device n d, some (subsetCandidate E device n d)) := by
        simp [bestStep, hlt]
      rw [hstep]
      refine ⟨?_, ?_, ?_⟩
      · intro j hj
        rcases (by omega : j < d ∨ j = d) with hj' | rfl
        · have := ihA j hj'
          simp only []
          omega
        · exact le_refl _
      · intro h
        exact Option.noConfusion h
      · intro lst h
        have hl : subsetCandidate E device n d = lst := by
          simpa using h
        refine ⟨d, by omega, hl.symm, rfl, by omega, ?_⟩
        intro j hj
        have := ihA j hj
        omega
    · have hstep : bestStep E device n ((List.range d).foldl (bestStep E device n) (0, none)) d =
          (List.range d).foldl (bestStep E device n) (0, none) := by
        simp [bestStep, hlt]
      rw [hstep]
      refine ⟨?_, ihB, ?_⟩
      · intro j hj
        rcases (by omega : j < d ∨ j = d) with hj' | rfl
        · exact ihA j hj'
        · omega
      · intro lst h
        obtain ⟨k, hk, h1, h2, h3, h4⟩ := ihC lst h
        exact ⟨k, by omega, h1, h2, h3, h4⟩

theorem best_subset_ok_some (device : Nat) (E : List (Nat × Nat)) (n : Int) (sub : List Nat)
    (h : _best_subset device E n = Except.ok (some sub)) :
    sub.length = n.toNat ∧ sub.Nodup := by
  by_cases h1 : n = 1
  · unfold _best_subset at h
    rw [if_pos h1] at h
    injection h with h
    injection h with h
    subst h
    subst h1
    exact ⟨rfl, List.nodup_singleton 0⟩
  by_cases h2 : n ≤ 0
  · unfold _best_subset at h
    rw [if_neg h1, if_pos h2] at h
    exact Except.noConfusion h
  by_cases h3 : (device : Int) < n
  · unfold _best_subset at h
    rw [if_neg h1, if_neg h2, if_pos h3] at h
    exact Except.noConfusion h
  · unfold _best_subset at h
    rw [if_neg h1, if_neg h2, if_neg h3] at h
    cases hloop : bestSubsetLoop E device n.toNat with
    | error e =>
      rw [hloop, exceptErrBind] at h
      exact Except.noConfusion h
    | ok st =>
      have hall := bestSubsetLoop_all E device n.toNat st hloop
      rw [bestSubsetLoop_eq E device n.toNat hall, exceptOkBind] at h
      injection h with h
      obtain ⟨_, _, hC⟩ := bestFold_spec E device n.toNat device
      obtain ⟨k, hk, hcand, _, _, _⟩ := hC sub h
      constructor
      · rw [hcand]
        unfold subsetCandidate
        rw [List.length_take]
        exact Nat.min_eq_left (hall k hk)
      · rw [hcand]
        exact (bfsOrder_nodup E device k).sublist (List.take_sublist _ _)

theorem connAt_zero_pos (E : List (Nat × Nat)) (device n : Nat) (hn : 2 ≤ n)
    (hlen : n ≤ (bfsOrder E device 0).length) : 0 < connAt E device n 0 := by
  obtain ⟨x, t, hbfs, hx⟩ := bfsOrder_second E device 0 (by omega)
  obtain ⟨m, rfl⟩ : ∃ m, n = m + 2 := ⟨n - 2, by omega⟩
  have hfront : subsetCandidate E device (m + 2) 0 = 0 :: x :: t.take m := by
    unfold subsetCandidate
    rw [hbfs]
    rfl
  unfold connAt
  rw [hfront]
  rcases hx with hx | hx
  · exact connectionCount_pos E _ 0 x (by simp) hx (by simp)
  · have h0 : (0 : Nat) ∈ outNeighbors E x :=
      (outNeighbors_mem E x 0).mpr ((inNeighbors_mem E 0 x).mp hx)
    exact connectionCount_pos E _ x 0 (by simp) h0 (by simp)

/-- C3 (amended): `_best_subset` fails with `InvalidArgument` (the
`QiskitError` for a non-positive count) when `n <= 0`; returns qubit 0 when
`n == 1` — this early return precedes the capacity check, so `n == 1` never
yields `CapacityExceeded` even when the device has fewer qubits; fails with
`CapacityExceeded` when `2 <= n` and `n` exceeds the device qubit count; and
raises no error for `1 <= n <= device` provided every qubit's breadth-first
search reaches at least `n` qubits (a disconnected coupling graph with a
too-small component instead escapes with an `IndexError`). -/
theorem best_subset_error_contract (device : Nat) (E : List (Nat × Nat)) (n : Int) :
    (n ≤ 0 → _best_subset device E n = Except.error TErr.invalidArgument) ∧
    (n = 1 → _best_subset device E n = Except.ok (some [0])) ∧
    (2 ≤ n → (device : Int) < n → _best_subset device E n = Except.error TErr.capacityExceeded) ∧
    (1 ≤ n → n ≤ (device : Int) →
      (∀ k, k < device → n.toNat ≤ (bfsOrder E device k).length) →
      ∃ r, _best_subset device E n = Except.ok r) := by
  refine ⟨?_, ?_, ?_, ?_⟩
  · intro h
    unfold _best_subset
    rw [if_neg (by omega), if_pos h]
  · intro h
    unfold _best_subset
    rw [if_pos h]
  · intro h1 h2
    unfold _best_subset
    rw [if_neg (by omega), if_neg (by omega), if_pos h2]
  · intro h1 h2 h3
    by_cases hn1 : n = 1
    · subst hn1
      exact ⟨some [0], by unfold _best_subset; rw [if_pos rfl]⟩
    · refine ⟨((List.range device).foldl (bestStep E device n.toNat) (0, none)).2, ?_⟩
      unfold _best_subset
      rw [if_neg hn1, if_neg (by omega), if_neg (by omega),
        bestSubsetLoop_eq E device n.toNat h3, exceptOkBind]

/-- C3 counterexample: with device qubit count 3, coupling pairs `[(0, 1)]`
and `n = 2` (so `1 <= n <= device` holds), `_best_subset` raises an
`IndexError` instead of completing without error: the breadth-first search
rooted at qubit 2 reaches only one qubit, and `bfs[1]` is read out of
bounds. -/
theorem best_subset_raises_in_range_counterexample :
    _best_subset 3 [(0, 1)] 2 = Except.error TErr.indexError ∧ (1 : Int) ≤ 2 ∧ (2 : Int) ≤ 3 :=
  ⟨rfl, by decide, by decide⟩

/-- C3 witness: the amended contract evaluated on a 4-qubit device with
coupling pairs `[(0,1),(1,2),(1,3)]`: `n = -1` raises `InvalidArgument`,
`n = 1` returns qubit 0, `n = 7` raises `CapacityExceeded`, and `n = 3`
completes without error. -/
theorem best_subset_error_contract_witness :
    _best_subset 4 [(0, 1), (1, 2), (1, 3)] (-1) = Except.error TErr.invalidArgument ∧
    _best_subset 4 [(0, 1), (1, 2), (1, 3)] 1 = Except.ok (some [0]) ∧
    _best_subset 4 [(0, 1), (1, 2), (1, 3)] 7 = Except.error TErr.capacityExceeded ∧
    ∃ r, _best_subset 4 [(0, 1), (1, 2), (1, 3)] 3 = Except.ok r :=
  ⟨(best_subset_error_contract 4 [(0, 1), (1, 2), (1, 3)] (-1)).1 (by decide),
   (best_subset_error_contract 4 [(0, 1), (1, 2), (1, 3)] 1).2.1 rfl,
   (best_subset_error_contract 4 [(0, 1), (1, 2), (1, 3)] 7).2.2.1 (by decide) (by decide),
   (best_subset_error_contract 4 [(0, 1), (1, 2), (1, 3)] 3).2.2.2 (by decide) (by decide)
     (by decide)⟩

/-- C4 (amended): for every subset size `n` with `1 <= n <=` device qubit
count, on every connectivity graph in which each qubit's breadth-first search
reaches at least `n` qubits (in particular on every connected coupling graph),
`_best_subset` returns exactly `n` distinct physical qubits — never fewer,
never duplicates, never a null result. -/
theorem best_subset_returns_n_distinct (device : Nat) (E : List (Nat × Nat)) (n : Int)
    (h1 : 1 ≤ n) (h2 : n ≤ (device : Int))
    (h3 : ∀ k, k < device → n.toNat ≤ (bfsOrder E device k).length) :
    ∃ l, _best_subset device E n = Except.ok (some l) ∧
      l.length = n.toNat ∧ l.Nodup := by
  by_cases hn1 : n = 1
  · subst hn1
    refine ⟨[0], ?_, rfl, List.nodup_singleton 0⟩
    unfold _best_subset
    rw [if_pos rfl]
  · have hd : 0 < device := by omega
    have hres : _best_subset device E n =
        Except.ok ((List.range device).foldl (bestStep E device n.toNat) (0, none)).2 := by
      unfold _best_subset
      rw [if_neg hn1, if_neg (by omega), if_neg (by omega),
        bestSubsetLoop_eq E device n.toNat h3, exceptOkBind]
    obtain ⟨hA, hB, hC⟩ := bestFold_spec E device n.toNat device
    have hpos : 0 < connAt E device n.toNat 0 :=
      connAt_zero_pos E device n.toNat (by omega) (h3 0 hd)
    cases hm : ((List.range device).foldl (bestStep E device n.toNat) (0, none)).2 with
    | none =>
      have ha := hA 0 hd
      have hb := hB hm
      omega
    | some lst =>
      obtain ⟨k, hk, hcand, _, _, _⟩ := hC lst hm
      refine ⟨lst, by rw [hres, hm], ?_, ?_⟩
      · rw [hcand]
        unfold subsetCandidate
        rw [List.length_take]
        exact Nat.min_eq_left (h3 k hk)
      · rw [hcand]
        exact (bfsOrder_nodup E device k).sublist (List.take_sublist _ _)

/-- C4 counterexample: device qubit count 3, coupling pairs `[(1, 2)]` and
`n = 2` is a valid size (`1 <= 2 <= 3`), yet `_best_subset` returns no subset
at all: qubit 0 is disconnected, its breadth-first order has length 1, and
the prefix read `bfs[1]` raises `IndexError`. -/
theorem best_subset_null_counterexample :
    _best_subset 3 [(1, 2)] 2 = Except.error TErr.indexError ∧
      (1 : Int) ≤ 2 ∧ (2 : Int) ≤ 3 :=
  ⟨rfl, by decide, by decide⟩

/-- C4 witness: on a 4-qubit device with coupling pairs `[(0,1),(1,2),(1,3)]`
and `n = 3`, the search returns 3 distinct qubits. -/
theorem best_subset_returns_n_distinct_witness :
    ∃ l, _best_subset 4 [(0, 1), (1, 2), (1, 3)] 3 = Except.ok (some l) ∧
      l.length = (3 : Int).toNat ∧ l.Nodup :=
  best_subset_returns_n_distinct 4 [(0, 1), (1, 2), (1, 3)] 3 (by decide) (by decide)
    (by decide)

/-! ## The scoring loop counts distinct coupling pairs inside the prefix -/

theorem dedup_toFinset (l : List (Nat × Nat)) : l.dedup.toFinset = l.toFinset := by
  ext e
  simp

theorem connectionCount_eq_edges (E : List (Nat × Nat)) (front : List Nat)
    (hf : front.Nodup) :
    connectionCount E front =
      (E.dedup.filter (fun e => decide (e.1 ∈ front) && decide (e.2 ∈ front))).length := by
  classical
  have hndR : (E.dedup.filter (fun e => decide (e.1 ∈ front) && decide (e.2 ∈ front))).Nodup :=
    E.nodup_dedup.filter _
  rw [← List.toFinset_card_of_nodup hndR, List.toFinset_filter, dedup_toFinset]
  unfold connectionCount
  rw [← List.sum_toFinset _ hf]
  have hterm : ∀ v ∈ front.toFinset,
      ((outNeighbors E v).filter (fun t => decide (t ∈ front))).length =
        ((E.toFinset.filter
            (fun e => (decide (e.1 ∈ front) && decide (e.2 ∈ front)) = true)).filter
          (fun e => e.1 = v)).card := by
    intro v hv
    rw [List.mem_toFinset] at hv
    have hnd : ((outNeighbors E v).filter (fun t => decide (t ∈ front))).Nodup :=
      (outNeighbors_nodup E v).filter _
    have hinj : Set.InjOn Prod.snd
        (((E.toFinset.filter
            (fun e => (decide (e.1 ∈ front) && decide (e.2 ∈ front)) = true)).filter
          (fun e => e.1 = v) : Finset (Nat × Nat)) : Set (Nat × Nat)) := by
      intro e he e' he' hsnd
      simp only [Finset.coe_filter, Set.mem_setOf_eq] at he he'
      exact Prod.ext (he.2.trans he'.2.symm) hsnd
    have himg : ((E.toFinset.filter
          (fun e => (decide (e.1 ∈ front) && decide (e.2 ∈ front)) = true)).filter
        (fun e => e.1 = v)).image Prod.snd =
        (outNeighbors E v).toFinset.filter (fun t => decide (t ∈ front) = true) := by
      ext t
      simp only [Finset.mem_image, Finset.mem_filter, List.mem_toFinset, outNeighbors_mem,
        Bool.and_eq_true, decide_eq_true_eq]
      constructor
      · rintro ⟨e, ⟨⟨heE, hef1, hef2⟩, hev⟩, rfl⟩
        subst hev
        exact ⟨heE, hef2⟩
      · rintro ⟨hvt, htf⟩
        exact ⟨(v, t), ⟨⟨hvt, hv, htf⟩, rfl⟩, rfl⟩
    rw [← List.toFinset_card_of_nodup hnd, List.toFinset_filter, ← himg,
      Finset.card_image_of_injOn hinj]
  rw [Finset.sum_congr rfl hterm]
  exact (Finset.card_eq_sum_card_fiberwise
    (fun e he => by
      simp only [Finset.mem_filter, Bool.and_eq_true, decide_eq_true_eq] at he
      exact List.mem_toFinset.mpr he.2.1)).symm

/-- C5: the best-connected-subset search scores each BFS root's first-`n`
prefix by the number of distinct coupling pairs with both endpoints in the
prefix, enumerates the roots in index order keeping a candidate only on a
strictly greater score (ties keep the earliest root, which also weakly beats
every later root), and on coupling edges `{(0,1),(1,2),(1,3)}` with `n = 3`
returns `[0, 1, 2]`, which includes qubit 1. -/
theorem best_subset_tiebreak_and_scenario :
    (∀ (E : List (Nat × Nat)) (front : List Nat), front.Nodup →
      connectionCount E front =
        (E.dedup.filter (fun e => decide (e.1 ∈ front) && decide (e.2 ∈ front))).length) ∧
    (∀ (device : Nat) (E : List (Nat × Nat)) (n : Int), 2 ≤ n →
      ∀ m, _best_subset device E n = Except.ok (some m) →
        ∃ k, k < device ∧ m = subsetCandidate E device n.toNat k ∧
          0 < connAt E device n.toNat k ∧
          (∀ j, j < k → connAt E device n.toNat j < connAt E device n.toNat k) ∧
          (∀ j, j < device → connAt E device n.toNat j ≤ connAt E device n.toNat k)) ∧
    _best_subset 4 [(0, 1), (1, 2), (1, 3)] 3 = Except.ok (some [0, 1, 2]) ∧
    (1 : Nat) ∈ [0, 1, 2] := by
  refine ⟨connectionCount_eq_edges, ?_, rfl, by decide⟩
  intro device E n hn m hm
  have hn1 : ¬ n = 1 := by omega
  have hn0 : ¬ n ≤ 0 := by omega
  unfold _best_subset at hm
  rw [if_neg hn1, if_neg hn0] at hm
  by_cases h3 : (device : Int) < n
  · rw [if_pos h3] at hm
    exact Except.noConfusion hm
  · rw [if_neg h3] at hm
    cases hloop : bestSubsetLoop E device n.toNat with
    | error e =>
      rw [hloop, exceptErrBind] at hm
      exact Except.noConfusion hm
    | ok st =>
      have hall := bestSubsetLoop_all E device n.toNat st hloop
      rw [bestSubsetLoop_eq E device n.toNat hall, exceptOkBind] at hm
      injection hm with hm
      obtain ⟨hA, _, hC⟩ := bestFold_spec E device n.toNat device
      obtain ⟨k, hk, hcand, heq, hpos, hearlier⟩ := hC m hm
      refine ⟨k, hk, hcand, hpos, hearlier, ?_⟩
      intro j hj
      rw [heq]
      exact hA j hj

/-- C5 witness: the scoring equality evaluated on the concrete scenario's
prefix, and the first-strict-maximum characterisation applied to the
scenario's result `[0, 1, 2]`. -/
theorem best_subset_tiebreak_witness :
    connectionCount [(0, 1), (1, 2), (1, 3)] [0, 1, 2] =
      (([(0, 1), (1, 2), (1, 3)] : List (Nat × Nat)).dedup.filter
        (fun e => decide (e.1 ∈ [0, 1, 2]) && decide (e.2 ∈ [0, 1, 2]))).length ∧
    ∃ k, k < 4 ∧
      ([0, 1, 2] : List Nat) = subsetCandidate [(0, 1), (1, 2), (1, 3)] 4 (3 : Int).toNat k ∧
      0 < connAt [(0, 1), (1, 2), (1, 3)] 4 (3 : Int).toNat k ∧
      (∀ j, j < k → connAt [(0, 1), (1, 2), (1, 3)] 4 (3 : Int).toNat j <
        connAt [(0, 1), (1, 2), (1, 3)] 4 (3 : Int).toNat k) ∧
      (∀ j, j < 4 → connAt [(0, 1), (1, 2), (1, 3)] 4 (3 : Int).toNat j ≤
        connAt [(0, 1), (1, 2), (1, 3)] 4 (3 : Int).toNat k) :=
  ⟨best_subset_tiebreak_and_scenario.1 [(0, 1), (1, 2), (1, 3)] [0, 1, 2] (by decide),
   best_subset_tiebreak_and_scenario.2.1 4 [(0, 1), (1, 2), (1, 3)] 3 (by decide)
     [0, 1, 2] rfl⟩

/-! ## Theorems about `transpile_dag`'s pass orchestration -/

/-- C2: with no pass manager, the default sequence runs basis unrolling first
and, exactly when the effective coupling map is present (a nonempty list, not
disabled by a 1-qubit register total or `"all-to-all"`), continues with
measurement removal, the 20-trial seeded router, a second unrolling, direction
correction, adjacent-CX cancellation, single-qubit fusion, and measurement
reattachment, in that order; otherwise only the unrolling runs. -/
theorem transpile_dag_default_pass_order (P : MapperOps α M C) (dag : DAGCircuit α)
    (bg : Option String) (cm : CMapArg) (il : Option Layout) (s : Option Int) :
    (∀ m, cm = CMapArg.pairs m → m ≠ [] → (dag.qregs.map QReg.size).sum ≠ 1 →
      transpile_dag P dag bg cm il s none =
        (P.returnLastMeasurements
          (P.optimize1qGates
            (P.cxCancellation
              (P.directionMapper
                (P.expandGates (basisList bg)
                  (P.swapMapper (P.removeLastMeasurements
                      (P.expandGates (basisList bg) dag)).1
                    (P.couplingOf m) il 20 s).1)
                (P.couplingOf m))))
          (P.removeLastMeasurements (P.expandGates (basisList bg) dag)).2
          (P.swapMapper (P.removeLastMeasurements (P.expandGates (basisList bg) dag)).1
            (P.couplingOf m) il 20 s).2.2,
         some (P.swapMapper (P.removeLastMeasurements (P.expandGates (basisList bg) dag)).1
            (P.couplingOf m) il 20 s).2.1,
         defaultCouplingTrace s)) ∧
    ((if (dag.qregs.map QReg.size).sum = 1 ∨ cm = CMapArg.allToAll then CMapArg.noneArg
        else cm).truthy = false →
      transpile_dag P dag bg cm il s none =
        (P.expandGates (basisList bg) dag, none, [PassEvent.unroll])) := by
  constructor
  · intro m hm hne h1
    subst hm
    have hcond : ¬((dag.qregs.map QReg.size).sum = 1 ∨ CMapArg.pairs m = CMapArg.allToAll) := by
      rintro (h | h)
      · exact h1 h
      · exact CMapArg.noConfusion h
    have hemp : m.isEmpty = false := by
      cases m with
      | nil => exact absurd rfl hne
      | cons a l => rfl
    simp only [transpile_dag, if_neg hcond, hemp, Bool.false_eq_true, if_false]
    rfl
  · intro h
    by_cases hcond : (dag.qregs.map QReg.size).sum = 1 ∨ cm = CMapArg.allToAll
    · simp only [transpile_dag, if_pos hcond]
    · rw [if_neg hcond] at h
      cases cm with
      | noneArg => simp only [transpile_dag, if_neg hcond]
      | allToAll => exact absurd (Or.inr rfl) hcond
      | pairs m =>
        have hemp : m.isEmpty = true := by
          simpa [CMapArg.truthy] using h
        simp only [transpile_dag, if_neg hcond, hemp, if_true]

/-- The trivial instantiation of the mapper pass collaborators, used to
evaluate the orchestration theorems on concrete inputs. -/
def trivialOps : MapperOps Unit Unit Unit where
  expandGates := fun _ d => d
  couplingOf := fun _ => ()
  removeLastMeasurements := fun d => (d, ())
  swapMapper := fun d _ _ _ _ => (d, [], [])
  directionMapper := fun d _ => d
  cxCancellation := fun d => d
  optimize1qGates := fun d => d
  returnLastMeasurements := fun d _ _ => d

/-- A two-qubit dag for concrete evaluations. -/
def dagTwoQubit : DAGCircuit Unit := ⟨[⟨"q", 2⟩], [], ()⟩

/-- A one-qubit dag for concrete evaluations. -/
def dagOneQubit : DAGCircuit Unit := ⟨[⟨"q", 1⟩], [], ()⟩

/-- C2 witness: the default pipeline on a two-qubit dag with coupling
`[(0, 1)]` performs exactly the default coupling trace. -/
theorem transpile_dag_default_pass_order_witness :
    transpile_dag trivialOps dagTwoQubit none (CMapArg.pairs [(0, 1)]) none none none =
      (dagTwoQubit, some [], defaultCouplingTrace none) := by
  rw [(transpile_dag_default_pass_order trivialOps dagTwoQubit none
      (CMapArg.pairs [(0, 1)]) none none).1 [(0, 1)] rfl (by decide) (by decide)]
  rfl

/-- C7: a caller-supplied pass manager fully replaces the default sequence:
exactly its passes run, in order, every recorded event is one of its passes
(none of the default passes appear), and the empty pass manager leaves the
dag unchanged.  `run_passes` lives outside the analysed sources and is
modelled from the spec as executing exactly the caller's ordered list. -/
theorem transpile_dag_custom_passes (P : MapperOps α M C) (dag : DAGCircuit α)
    (bg : Option String) (cm : CMapArg) (il : Option Layout) (s : Option Int)
    (ps : List (DAGCircuit α → DAGCircuit α)) :
    transpile_dag P dag bg cm il s (some ps) =
      (ps.foldl (fun d p => p d) dag, none, (List.range ps.length).map PassEvent.custom) ∧
    transpile_dag P dag bg cm il s (some []) = (dag, none, []) ∧
    ∀ ev ∈ (transpile_dag P dag bg cm il s (some ps)).2.2, ∃ i, i < ps.length ∧
      ev = PassEvent.custom i := by
  refine ⟨rfl, rfl, ?_⟩
  intro ev hev
  have : (transpile_dag P dag bg cm il s (some ps)).2.2 =
      (List.range ps.length).map PassEvent.custom := rfl
  rw [this] at hev
  obtain ⟨i, hi, rfl⟩ := List.mem_map.mp hev
  exact ⟨i, List.mem_range.mp hi, rfl⟩

/-- C10: a dag whose registers declare exactly one qubit in total, or a
coupling map given as the string `"all-to-all"`, disables the coupling map:
the default path runs only the basis unrolling (no measurement removal,
routing, direction correction, cancellation or fusion) and the final layout
is `None`. -/
theorem transpile_dag_unconstrained (P : MapperOps α M C) (dag : DAGCircuit α)
    (bg : Option String) (cm : CMapArg) (il : Option Layout) (s : Option Int)
    (h : (dag.qregs.map QReg.size).sum = 1 ∨ cm = CMapArg.allToAll) :
    transpile_dag P dag bg cm il s none =
      (P.expandGates (basisList bg) dag, none, [PassEvent.unroll]) ∧
    ∀ ev ∈ (transpile_dag P dag bg cm il s none).2.2, ev = PassEvent.unroll := by
  have heq : transpile_dag P dag bg cm il s none =
      (P.expandGates (basisList bg) dag, none, [PassEvent.unroll]) := by
    simp only [transpile_dag, if_pos h]
  refine ⟨heq, ?_⟩
  intro ev hev
  rw [heq] at hev
  simpa using hev

/-- C10 witness: a one-qubit dag with a genuine coupling list still runs only
the unrolling and returns no layout, and so does a two-qubit dag under
`"all-to-all"`. -/
theorem transpile_dag_unconstrained_witness :
    transpile_dag trivialOps dagOneQubit none (CMapArg.pairs [(0, 1)]) none none none =
      (dagOneQubit, none, [PassEvent.unroll]) ∧
    transpile_dag trivialOps dagTwoQubit none CMapArg.allToAll none none none =
      (dagTwoQubit, none, [PassEvent.unroll]) :=
  ⟨(transpile_dag_unconstrained trivialOps dagOneQubit none (CMapArg.pairs [(0, 1)])
      none none (by decide)).1,
   (transpile_dag_unconstrained trivialOps dagTwoQubit none CMapArg.allToAll
      none none (by decide)).1⟩

/-- Every router event `transpile_dag` records carries 20 trials and exactly
the caller-supplied mapper seed. -/
theorem transpile_dag_swapMap_trace (P : MapperOps α M C) (dag : DAGCircuit α)
    (bg : Option String) (cm : CMapArg) (il : Option Layout) (sm : Option Int)
    (pm : Option (List (DAGCircuit α → DAGCircuit α))) :
    ∀ t s, PassEvent.swapMap t s ∈ (transpile_dag P dag bg cm il sm pm).2.2 →
      t = 20 ∧ s = sm := by
  intro t s h
  cases pm with
  | some ps =>
    have : (transpile_dag P dag bg cm il sm (some ps)).2.2 =
        (List.range ps.length).map PassEvent.custom := rfl
    rw [this] at h
    obtain ⟨i, _, hi⟩ := List.mem_map.mp h
    exact PassEvent.noConfusion hi
  | none =>
    by_cases hcond : (dag.qregs.map QReg.size).sum = 1 ∨ cm = CMapArg.allToAll
    · rw [(transpile_dag_unconstrained P dag bg cm il sm hcond).1] at h
      simp at h
    · cases cm with
      | noneArg =>
        rw [(transpile_dag_default_pass_order P dag bg CMapArg.noneArg il sm).2
          (by rw [if_neg hcond]; rfl)] at h
        simp at h
      | allToAll => exact absurd (Or.inr rfl) hcond
      | pairs m =>
        by_cases hemp : m = []
        · subst hemp
          rw [(transpile_dag_default_pass_order P dag bg (CMapArg.pairs []) il sm).2
            (by rw [if_neg hcond]; rfl)] at h
          simp at h
        · rw [(transpile_dag_default_pass_order P dag bg (CMapArg.pairs m) il sm).1
            m rfl hemp (fun h1 => hcond (Or.inl h1))] at h
          simp only [defaultCouplingTrace, List.mem_cons] at h
          rcases h with h | h | h | h | h | h | h | h <;>
            first
              | exact PassEvent.noConfusion h
              | (injection h with h1 h2; exact ⟨h1, h2⟩)
              | simp at h


/-! ## Theorems about `transpile` and `_transpilation` -/

/-- C1: in a batch, the transpiled output at position `i` depends only on the
circuit at position `i` and the shared task arguments — never on the other
circuits or on the parallel completion order (`parallel_map` preserves input
order and passes identical arguments to every task); every router invocation
recorded for any circuit carries 20 trials and exactly the caller-supplied
seed, so with the spec's per-trial seeding each trial's seed
`trial_seed seed trial = seed + trial` is a pure deterministic function of
(caller seed, circuit index, trial index), constant in the circuit index. -/
theorem transpile_batch_independent (env : TranspEnv α M C ν ω) (backend : BackendConf)
    (bg : Option String) (cm : CMapArg) (il : Option Layout) (sm : Option Int)
    (pm : Option (List (DAGCircuit α → DAGCircuit α))) (cs cs' : List ν) (i : Nat)
    (h : cs.get? i = cs'.get? i) :
    (transpile env cs backend bg cm il sm pm).get? i =
      (transpile env cs' backend bg cm il sm pm).get? i ∧
    (∀ out tr t s, (transpile env cs backend bg cm il sm pm).get? i =
        some (Except.ok (out, tr)) → PassEvent.swapMap t s ∈ tr → t = 20 ∧ s = sm) ∧
    (∀ s t, trial_seed s t = s + t) := by
  refine ⟨?_, ?_, fun s t => rfl⟩
  · show ((cs.map _).get? i) = ((cs'.map _).get? i)
    rw [List.get?_map, List.get?_map, h]
  · intro out tr t s hq htr
    rw [show (transpile env cs backend bg cm il sm pm).get? i = (cs.get? i).map _ from
      List.get?_map _ _ _] at hq
    cases hc : cs.get? i with
    | none => rw [hc] at hq; exact Option.noConfusion hq
    | some c =>
      rw [hc] at hq
      injection hq with hq
      have hq2 : _transpilation env c backend
          (if strTruthy bg then bg else some (String.intercalate "," backend.basis_gates))
          (if cm.truthy then cm else backend.coupling) il sm pm = Except.ok (out, tr) := hq
      cases heff : effectiveInitialLayout (env.fromQuantumCircuit c).nodes
          (env.fromQuantumCircuit c).qregs backend
          (if cm.truthy then cm else backend.coupling) il with
      | error e =>
        simp only [_transpilation, heff, exceptErrBind] at hq2
        exact Except.noConfusion hq2
      | ok il2 =>
        simp only [_transpilation, heff, exceptOkBind] at hq2
        injection hq2 with hq2
        have htr2 : tr = (transpile_dag env.ops (env.fromQuantumCircuit c)
            (if strTruthy bg then bg else some (String.intercalate "," backend.basis_gates))
            (if cm.truthy then cm else backend.coupling) il2 sm pm).2.2 :=
          (congrArg Prod.snd hq2).symm
        rw [htr2] at htr
        exact transpile_dag_swapMap_trace env.ops _ _ _ il2 sm pm t s htr

/-- The trivial circuit-level collaborators, for concrete evaluations. -/
def trivialEnv : TranspEnv Unit Unit Unit Unit Unit where
  ops := trivialOps
  fromQuantumCircuit := fun _ => ⟨[], [], ()⟩
  toQuantumCircuit := fun _ _ => ()

/-- A simulator backend configuration for concrete evaluations. -/
def trivialBackend : BackendConf where
  basis_gates := []
  coupling := CMapArg.noneArg
  simulator := true
  n_qubits := 0

/-- C1 witness: position 0 of a one-circuit batch and of a two-circuit batch
holding the same first circuit transpile identically. -/
theorem transpile_batch_independent_witness :
    (transpile trivialEnv [()] trivialBackend none CMapArg.noneArg none none none).get? 0 =
      (transpile trivialEnv [(), ()] trivialBackend none CMapArg.noneArg none none
        none).get? 0 :=
  (transpile_batch_independent trivialEnv trivialBackend none CMapArg.noneArg none none none
    [()] [(), ()] 0 rfl).1


/-! ## Theorems about `_matches_coupling_map` and the layout decision -/

theorem gateViolates_iff (m : List (Nat × Nat)) (nd : GateNode) :
    gateViolates m nd = true ↔
      nd.ntype = "op" ∧ 1 < nd.qargs.length ∧
        ¬ ∃ p ∈ m, nd.qargs.map Prod.snd = [p.1, p.2] := by
  unfold gateViolates
  simp [List.any_eq_true]
  tauto

theorem matches_coupling_map_false_iff (nodes : List GateNode) (m : List (Nat × Nat)) :
    _matches_coupling_map nodes m = false ↔ ∃ nd ∈ nodes, gateViolates m nd = true := by
  induction nodes with
  | nil => simp [_matches_coupling_map]
  | cons nd rest ih =>
    unfold _matches_coupling_map
    by_cases hv : gateViolates m nd
    · rw [if_pos hv]
      simp only [List.mem_cons]
      exact ⟨fun _ => ⟨nd, Or.inl rfl, hv⟩, fun _ => trivial⟩
    · rw [if_neg hv, ih]
      constructor
      · rintro ⟨x, hx, hvx⟩
        exact ⟨x, List.mem_cons_of_mem _ hx, hvx⟩
      · rintro ⟨x, hx, hvx⟩
        rcases List.mem_cons.mp hx with rfl | hx
        · exact absurd hvx hv
        · exact ⟨x, hx, hvx⟩

/-- C6: with a coupling list present, `_transpilation`'s layout step computes
an initial layout automatically exactly when no layout was supplied, the
backend is not a simulator, and the dag does not already match the coupling
map — that is, some multi-qubit op's qubit-index list is not an element of
the coupling list; in every other case the supplied layout is used
unchanged. -/
theorem transpilation_picks_layout_iff (nodes : List GateNode) (qregs : List QReg)
    (backend : BackendConf) (m : List (Nat × Nat)) (init : Option Layout) :
    (effectiveInitialLayout nodes qregs backend (CMapArg.pairs m) init =
      if init.isNone && !backend.simulator && !(_matches_coupling_map nodes m) then
        Except.map some
          (_pick_best_layout backend.n_qubits (cmapPairsOf backend.coupling) qregs)
      else Except.ok init) ∧
    ((init.isNone && !backend.simulator && !(_matches_coupling_map nodes m)) = true ↔
      (init = none ∧ backend.simulator = false ∧
        ∃ nd ∈ nodes, nd.ntype = "op" ∧ 1 < nd.qargs.length ∧
          ¬ ∃ p ∈ m, nd.qargs.map Prod.snd = [p.1, p.2])) := by
  constructor
  · unfold effectiveInitialLayout
    by_cases hA : (init.isNone && !backend.simulator) = true
    · rw [if_pos hA]
      by_cases hm : _matches_coupling_map nodes m
      · simp [matchesArg, hm, hA, exceptOkBind]
      · have hm' : _matches_coupling_map nodes m = false := by
          cases hb : _matches_coupling_map nodes m
          · rfl
          · exact absurd hb hm
        simp only [matchesArg, exceptOkBind, hm', Bool.false_eq_true, if_false, hA,
          Bool.not_false, Bool.and_true, if_true]
        cases hp : _pick_best_layout backend.n_qubits (cmapPairsOf backend.coupling) qregs <;>
          simp [hp, Except.map, exceptOkBind, exceptErrBind]
    · have hA' : (init.isNone && !backend.simulator) = false := by
        cases hb : (init.isNone && !backend.simulator)
        · rfl
        · exact absurd hb hA
      rw [if_neg hA]
      have hcond : (init.isNone && !backend.simulator && !(_matches_coupling_map nodes m)) =
          false := by
        rw [hA']
        rfl
      rw [hcond]
      simp
  · simp only [Bool.and_eq_true, Bool.not_eq_true', Option.isNone_iff_eq_none,
      matches_coupling_map_false_iff]
    constructor
    · rintro ⟨⟨h1, h2⟩, h3⟩
      obtain ⟨nd, hnd, hv⟩ := h3
      exact ⟨h1, h2, nd, hnd, (gateViolates_iff m nd).mp hv⟩
    · rintro ⟨h1, h2, nd, hnd, hv⟩
      exact ⟨⟨h1, h2⟩, nd, hnd, (gateViolates_iff m nd).mpr hv⟩

/-! ## Theorems about `_pick_best_layout` -/

/-- The virtual qubits of a register list, in declaration order and, within a
register, in increasing index order. -/
def flattenVirtualQubits (regs : List QReg) : List (String × Nat) :=
  regs.bind (fun r => (List.range r.size).map (fun i => (r.name, i)))

theorem pickInner_spec (sub : List Nat) (name : String) (size : Nat) :
    ∀ (acc : Layout) (off : Nat), off + size ≤ sub.length →
    ((List.range size).foldlM
        (fun (st : Layout × Nat) i =>
          match sub.get? st.2 with
          | some phys => Except.ok (st.1 ++ [((name, i), ("q", phys))], st.2 + 1)
          | none => Except.error TErr.indexError)
        (acc, off) : Except TErr (Layout × Nat)) =
      Except.ok (acc ++ ((List.range size).map (fun i => ((name, i) : String × Nat))).zip
          (((sub.drop off).take size).map (fun p => (("q", p) : String × Nat))),
        off + size) := by
  induction size with
  | zero =>
    intro acc off h
    simp
    rfl
  | succ s ih =>
    intro acc off h
    have hlt : off + s < sub.length := by omega
    have hv : sub.get? (off + s) = some (sub.get ⟨off + s, hlt⟩) :=
      List.get?_eq_get hlt
    have hd : (sub.drop off)[s]? = some (sub.get ⟨off + s, hlt⟩) := by
      rw [List.getElem?_drop, ← List.get?_eq_getElem?]
      exact hv
    have hZ : ((List.range (s + 1)).map (fun i => ((name, i) : String × Nat))).zip
        (((sub.drop off).take (s + 1)).map (fun p => (("q", p) : String × Nat))) =
        ((List.range s).map (fun i => ((name, i) : String × Nat))).zip
          (((sub.drop off).take s).map (fun p => (("q", p) : String × Nat))) ++
          [((name, s), ("q", sub.get ⟨off + s, hlt⟩))] := by
      rw [List.range_succ, List.map_append, List.take_succ, hd, List.map_append]
      rw [List.zip_append (by simp [List.length_take, List.length_drop]; omega)]
      simp
    conv_lhs => rw [List.range_succ]
    rw [List.foldlM_append, ih acc off (by omega), exceptOkBind]
    conv_rhs => rw [hZ]
    simp only [List.foldlM_cons, List.foldlM_nil, hv]
    simp [List.append_assoc, exceptOkBind]
    omega

theorem pickOuter_spec (sub : List Nat) :
    ∀ (regs : List QReg) (acc : Layout) (off : Nat),
      off + (regs.map QReg.size).sum ≤ sub.length →
      (regs.foldlM
        (fun (st : Layout × Nat) qreg =>
          (List.range qreg.size).foldlM
            (fun (st : Layout × Nat) i =>
              match sub.get? st.2 with
              | some phys => Except.ok (st.1 ++ [((qreg.name, i), ("q", phys))], st.2 + 1)
              | none => Except.error TErr.indexError)
            st)
        (acc, off) : Except TErr (Layout × Nat)) =
      Except.ok (acc ++ (flattenVirtualQubits regs).zip
          (((sub.drop off).take ((regs.map QReg.size).sum)).map
            (fun p => (("q", p) : String × Nat))),
        off + (regs.map QReg.size).sum) := by
  intro regs
  induction regs with
  | nil =>
    intro acc off h
    simp [flattenVirtualQubits]
    rfl
  | cons r rest ih =>
    intro acc off h
    simp only [List.map_cons, List.sum_cons] at h ⊢
    rw [List.foldlM_cons, pickInner_spec sub r.name r.size acc off (by omega), exceptOkBind,
      ih _ _ (by omega)]
    have hflat : flattenVirtualQubits (r :: rest) =
        (List.range r.size).map (fun i => ((r.name, i) : String × Nat)) ++
          flattenVirtualQubits rest := by
      simp [flattenVirtualQubits]
    have hsplit : (sub.drop off).take (r.size + (rest.map QReg.size).sum) =
        (sub.drop off).take r.size ++
          (sub.drop (off + r.size)).take ((rest.map QReg.size).sum) := by
      rw [List.take_add]
      rw [List.drop_drop]
    rw [hflat, hsplit, List.map_append,
      List.zip_append (by simp [List.length_take, List.length_drop]; omega),
      ← List.append_assoc]
    rw [show off + (r.size + (rest.map QReg.size).sum) = off + r.size +
      (rest.map QReg.size).sum from by omega]

/-- C8: when the best-connected subset exists for the circuit's total declared
qubit count, the automatically picked layout assigns the virtual qubits — in
register declaration order and, within each register, in increasing index
order — to the subset's physical qubits in order. -/
theorem pick_best_layout_assignment (device : Nat) (E : List (Nat × Nat)) (regs : List QReg)
    (sub : List Nat)
    (h : _best_subset device E (((regs.map QReg.size).sum : Nat) : Int) =
      Except.ok (some sub)) :
    _pick_best_layout device E regs =
      Except.ok ((flattenVirtualQubits regs).zip
        (sub.map (fun p => (("q", p) : String × Nat)))) := by
  have hlen : sub.length = (regs.map QReg.size).sum := by
    have hh := (best_subset_ok_some device E _ sub h).1
    rwa [Int.toNat_natCast] at hh
  unfold _pick_best_layout
  simp only [h, exceptOkBind]
  rw [pickOuter_spec sub regs [] 0 (by omega), exceptOkBind]
  simp only [List.drop_zero, List.nil_append]
  rw [List.take_of_length_le (by omega)]

/-- C8 witness: registers `a` (size 2) and `b` (size 1) on the 4-qubit device
with coupling `[(0,1),(1,2),(1,3)]` are assigned to the best subset
`[0, 1, 2]` in declaration and index order. -/
theorem pick_best_layout_assignment_witness :
    _pick_best_layout 4 [(0, 1), (1, 2), (1, 3)] [⟨"a", 2⟩, ⟨"b", 1⟩] =
      Except.ok ((flattenVirtualQubits [⟨"a", 2⟩, ⟨"b", 1⟩]).zip
        (([0, 1, 2] : List Nat).map (fun p => (("q", p) : String × Nat)))) :=
  pick_best_layout_assignment 4 [(0, 1), (1, 2), (1, 3)] [⟨"a", 2⟩, ⟨"b", 1⟩] [0, 1, 2] rfl

/-! ## Theorems about `QasmSimulator._validate` -/

theorem validate_foldl (l : List Experiment) (acc : List String) :
    l.foldl
      (fun ws e =>
        if "measure" ∈ e.instructions.map Instruction.name then ws
        else ws ++ [e.header.name])
      acc =
    acc ++ (l.filter
        (fun e => !(decide ("measure" ∈ e.instructions.map Instruction.name)))).map
      (fun e => e.header.name) := by
  induction l generalizing acc with
  | nil => simp
  | cons e es ih =>
    by_cases he : "measure" ∈ e.instructions.map Instruction.name
    · have hb : (!decide ("measure" ∈ e.instructions.map Instruction.name)) = false := by
        simpa using he
      simp only [List.foldl_cons, if_pos he, List.filter_cons, hb, Bool.false_eq_true, if_false]
      exact ih acc
    · have hb : (!decide ("measure" ∈ e.instructions.map Instruction.name)) = true := by
        simpa using he
      simp only [List.foldl_cons, if_neg he, List.filter_cons, hb, if_true, List.map_cons]
      rw [ih (acc ++ [e.header.name]), List.append_assoc]
      rfl

/-- C9: validation of a qobj emits exactly one warning (naming the
experiment) per experiment containing no `measure` instruction, raises no
error (it is a total function into the warning list), and the simulator
output of `_run_job` is computed from the qobj dictionary alone — it is the
same whether or not warnings were emitted. -/
theorem qasm_validate_warns_only (qobj : Qobj) (as_dict : Qobj → δ) (run_exe : δ → ρ)
    (job_id : String) :
    QasmSimulator._validate qobj =
      (qobj.experiments.filter
        (fun e => !(decide ("measure" ∈ e.instructions.map Instruction.name)))).map
        (fun e => e.header.name) ∧
    QasmSimulator._run_job as_dict run_exe job_id qobj =
      (QasmSimulator._validate qobj, run_exe (as_dict qobj), job_id) := by
  constructor
  · unfold QasmSimulator._validate
    rw [validate_foldl]
    simp
  · rfl
